import Mathlib

/-!
A verification development for the LiMe spectral-line measurement library
(`src/lime/workflow.py`, `src/lime/treatment.py`).  Python code is shallowly
embedded: arrays become `List ℚ`, fallible code returns `Except`, and the
mutable objects are threaded as explicit state records.  External library
calls (lmfit polynomial fits, physical unit conversions) are parameters of
the embedding, so every theorem quantifies over them.
-/

namespace Lime

/-! ## Checkpointed cube batch loop

Embeds the spaxel loop of `CubeTreatment.spatial_mask`
(`workflow.py` lines 459-503).  Per selected spaxel the source appends one
HDU extension to the in-memory container `hdul_log` and then runs

    if spax_counter < n_save: spax_counter += 1
    else: spax_counter = 0; hdul_log.writeto(output_log, overwrite=True)

`CkState.persisted` models the content of the output file on disk
(`none` = the file has never been written). -/

deriving instance DecidableEq for Except

structure CkState where
  spax_counter : Nat
  hdul_log : List String
  persisted : Option (List String)
deriving DecidableEq, Repr

/-- Initial state of the loop: `spax_counter = 0`, container holding only the
primary HDU (not modelled as an extension), nothing written to disk yet. -/
def ckInit : CkState := ⟨0, [], none⟩

/-- The save-check at the end of one spaxel iteration (`workflow.py` 496-500). -/
def saveStep (n_save : Nat) (st : CkState) : CkState :=
  if st.spax_counter < n_save then
    { st with spax_counter := st.spax_counter + 1 }
  else
    { st with spax_counter := 0, persisted := some st.hdul_log }

/-- One spaxel iteration: append the spaxel's lines-log HDU
(`hdul_log.append(linesHDU)`, line 493) then run the save-check. -/
def processVoxel (n_save : Nat) (st : CkState) (ext : String) : CkState :=
  saveStep n_save { st with hdul_log := st.hdul_log ++ [ext] }

/-- The spaxel loop of one spatial mask, interrupted after the given list of
spaxels: the state after the `for j in np.arange(n_spaxels)` loop has
processed exactly the spaxels of `voxels` (no end-of-mask flush). -/
def runCk (n_save : Nat) (voxels : List String) : CkState :=
  voxels.foldl (processVoxel n_save) ckInit

/-- The end-of-mask flush (`workflow.py` line 503): unconditional `writeto`. -/
def maskEndFlush (st : CkState) : CkState :=
  { st with persisted := some st.hdul_log }

/-- Helper: foldl of `processVoxel` while the counter stays below `n_save`:
no flush happens, the counter advances by the number of voxels and the
container accumulates their extensions. -/
theorem runCk_small (n_save : Nat) :
    ∀ (vs : List String) (c : Nat) (h : List String) (p : Option (List String)),
      c + vs.length ≤ n_save →
      vs.foldl (processVoxel n_save) ⟨c, h, p⟩ = ⟨c + vs.length, h ++ vs, p⟩ := by
  intro vs
  induction vs with
  | nil => intro c h p _; simp
  | cons v vs ih =>
      intro c h p hle
      have hc : c < n_save := by
        have := hle
        simp [List.length_cons] at this
        omega
      have h1 : processVoxel n_save ⟨c, h, p⟩ v = ⟨c + 1, h ++ [v], p⟩ := by
        simp [processVoxel, saveStep, hc]
      rw [List.foldl_cons, h1, ih (c + 1) (h ++ [v]) p (by simp at hle ⊢; omega)]
      simp [List.length_cons]
      omega

/-- Every spaxel iteration appends exactly one extension to the container,
whether or not a flush happens. -/
theorem foldl_hdul_log (n_save : Nat) :
    ∀ (vs : List String) (st : CkState),
      (vs.foldl (processVoxel n_save) st).hdul_log = st.hdul_log ++ vs := by
  intro vs
  induction vs with
  | nil => intro st; simp
  | cons v vs ih =>
      intro st
      rw [List.foldl_cons, ih]
      by_cases hc : st.spax_counter < n_save <;>
        simp [processVoxel, saveStep, hc]

/-- C1 (amended): interrupting the spaxel loop of a mask after `n_save + k`
voxels (`0 < k < n_save`) leaves a persisted container holding exactly
`n_save + 1` committed voxel extensions — the first `n_save + 1` spaxels of
the mask — because the counter reset (`spax_counter = 0`) does not count the
flushing voxel itself, so the flush cadence is `n_save + 1`, not `n_save`. -/
theorem checkpoint_persists_n_save_plus_one (n_save k : Nat) (vs : List String)
    (hk0 : 0 < k) (hkn : k < n_save) (hlen : vs.length = n_save + k) :
    (runCk n_save vs).persisted = some (vs.take (n_save + 1)) ∧
      (vs.take (n_save + 1)).length = n_save + 1 := by
  set a := vs.take n_save with ha
  have halen : a.length = n_save := by
    simp [ha]; omega
  have hdlen : (vs.drop n_save).length = k := by simp; omega
  obtain ⟨w, b, hwb⟩ : ∃ w b, vs.drop n_save = w :: b := by
    cases hd : vs.drop n_save with
    | nil => rw [hd] at hdlen; simp at hdlen; omega
    | cons w b => exact ⟨w, b, rfl⟩
  have hblen : b.length = k - 1 := by rw [hwb] at hdlen; simp at hdlen; omega
  have hvs : vs = a ++ w :: b := by rw [ha, ← hwb]; exact (List.take_append_drop _ _).symm
  have htake : vs.take (n_save + 1) = a ++ [w] := by
    rw [hvs, List.take_append_eq_append_take, List.take_of_length_le (by omega),
        halen]
    have : n_save + 1 - n_save = 1 := by omega
    rw [this]
    rfl
  have hstep : processVoxel n_save ⟨0 + a.length, [] ++ a, none⟩ w
      = ⟨0, a ++ [w], some (a ++ [w])⟩ := by
    simp [processVoxel, saveStep, halen]
  have hrun : runCk n_save vs = ⟨0 + b.length, (a ++ [w]) ++ b, some (a ++ [w])⟩ := by
    rw [hvs]
    show (a ++ w :: b).foldl (processVoxel n_save) ⟨0, [], none⟩ = _
    rw [List.foldl_append, runCk_small n_save a 0 [] none (by omega),
        List.foldl_cons, hstep,
        runCk_small n_save b 0 (a ++ [w]) (some (a ++ [w])) (by omega)]
  rw [hrun, htake]
  constructor
  · rfl
  · simp [halen]

/-- C1 counterexample: with checkpoint interval `n_save = 2` and `k = 1`
(three processed voxels of a mask), the persisted container holds 3 voxel
extensions, not the `n_save = 2` that the claim states. -/
theorem checkpoint_counterexample :
    (runCk 2 ["0-0", "0-1", "0-2"]).persisted = some ["0-0", "0-1", "0-2"] ∧
      ¬ (runCk 2 ["0-0", "0-1", "0-2"]).persisted.map List.length = some 2 := by
  decide

/-- Witness for `checkpoint_persists_n_save_plus_one` at `n_save = 2`,
`k = 1`. -/
theorem checkpoint_persists_witness :
    (runCk 2 ["a", "b", "c"]).persisted = some (["a", "b", "c"].take 3) ∧
      ((["a", "b", "c"] : List String).take 3).length = 3 :=
  checkpoint_persists_n_save_plus_one 2 1 ["a", "b", "c"] (by decide) (by decide)
    (by decide)

/-! ### Failure propagation in the spaxel loop (C2)

In the source, `spaxel = self._cube.get_spaxel(...)` and
`spaxel.fit.frame(...)` (`workflow.py` 475-481) are called with no
surrounding `try/except`: a Python exception raised by one voxel's fitting
pipeline propagates out of `spatial_mask` and terminates the mask loop.  The
per-voxel pipeline is a parameter returning `Except`; an `Except.error`
models the raised exception, which freezes the loop state. -/

/-- The spaxel loop with a fallible per-voxel pipeline.  On a pipeline
exception the loop aborts: the current voxel's extension is not appended and
no further voxel runs (there is no `try/except` in the source loop). -/
def runCkExc (n_save : Nat) (pipeline : String → Except String Unit) :
    List String → CkState → Except (CkState × String) CkState
  | [], st => .ok st
  | v :: vs, st =>
    match pipeline v with
    | .error e => .error (st, e)
    | .ok _ => runCkExc n_save pipeline vs (processVoxel n_save st v)

/-- Helper: the fallible loop run over a prefix of succeeding voxels followed
by a failing voxel aborts with the state accumulated over the prefix. -/
theorem runCkExc_first_error (n_save : Nat)
    (pipeline : String → Except String Unit) (rest : List String)
    (v : String) (e : String) (hv : pipeline v = .error e) :
    ∀ (good : List String) (st : CkState), (∀ x ∈ good, pipeline x = .ok ()) →
      runCkExc n_save pipeline (good ++ v :: rest) st
        = .error (good.foldl (processVoxel n_save) st, e) := by
  intro good
  induction good with
  | nil => intro st _; simp [runCkExc, hv]
  | cons g gs ih =>
      intro st hall
      have hg : pipeline g = .ok () := hall g (List.mem_cons_self g gs)
      rw [List.cons_append]
      simp only [runCkExc, hg, List.foldl_cons]
      exact ih _ (fun x hx => hall x (List.mem_cons_of_mem g hx))

/-- C2 (amended): an exception raised by one voxel's fitting pipeline aborts
the whole mask batch: the loop stops at the first failing voxel, the
in-memory container holds exactly the extensions of the voxels processed
before the failure, and no voxel after the failing one is appended. -/
theorem voxel_exception_aborts_batch (n_save : Nat)
    (pipeline : String → Except String Unit) (good rest : List String)
    (v : String) (e : String)
    (hgood : ∀ x ∈ good, pipeline x = .ok ())
    (hv : pipeline v = .error e) :
    runCkExc n_save pipeline (good ++ v :: rest) ckInit
        = .error (runCk n_save good, e) ∧
      (runCk n_save good).hdul_log = good := by
  refine ⟨runCkExc_first_error n_save pipeline rest v e hv good ckInit hgood, ?_⟩
  show (good.foldl (processVoxel n_save) ckInit).hdul_log = good
  rw [foldl_hdul_log]
  rfl

/-- C2 counterexample: with a pipeline that raises at voxel `0-1`, the batch
run over voxels `0-0`, `0-1`, `0-2` aborts at `0-1`: the container holds only
`0-0` and voxel `0-2` — after the failing voxel — is never processed or
appended, contradicting the claim that processing continues. -/
theorem voxel_exception_counterexample :
    runCkExc 100 (fun s => if s = "0-1" then .error "boom" else .ok ())
        ["0-0", "0-1", "0-2"] ckInit
      = .error (⟨1, ["0-0"], none⟩, "boom") ∧
      ¬ "0-2" ∈ (⟨1, ["0-0"], none⟩ : CkState).hdul_log := by
  decide

/-- Witness for `voxel_exception_aborts_batch` at a concrete pipeline and
voxel list. -/
theorem voxel_exception_aborts_witness :
    runCkExc 7 (fun s => if s = "1-1" then .error "err" else .ok ())
        (["1-0"] ++ "1-1" :: ["1-2"]) ckInit
      = .error (runCk 7 ["1-0"], "err") ∧
      (runCk 7 ["1-0"]).hdul_log = ["1-0"] :=
  voxel_exception_aborts_batch 7 _ ["1-0"] ["1-2"] "1-1" "err"
    (by intro x hx; simp at hx; subst hx; decide) (by decide)

/-! ## Spaxel selection order (C8)

`workflow.py` line 416: `idcs_spaxels = np.argwhere(spa_mask)` and lines
463-465: the loop walks `idcs_spaxels` in order, reading `idx_j, idx_i =
idcs_spaxels[j]`.  `np.argwhere` on a 2D boolean array returns the (row,
column) pairs of the `True` entries in C (row-major) order.  The mask is a
list of rows, each a list of booleans. -/

/-- The `True` column positions of one mask row `row`, as `(r, c)` pairs,
starting the column count at `c0`. -/
def rowTrueCols (r : Nat) : List Bool → Nat → List (Nat × Nat)
  | [], _ => []
  | b :: bs, c0 => (if b then [(r, c0)] else []) ++ rowTrueCols r bs (c0 + 1)

/-- Row-major scan of the rows of the mask, starting the row count at `r0`. -/
def argwhereAux : List (List Bool) → Nat → List (Nat × Nat)
  | [], _ => []
  | row :: rows, r0 => rowTrueCols r0 row 0 ++ argwhereAux rows (r0 + 1)

/-- Model of `np.argwhere` on a 2D boolean mask: the coordinates of the `True`
entries in row-major order. -/
def argwhere (m : List (List Bool)) : List (Nat × Nat) := argwhereAux m 0

/-- Strict row-major (lexicographic) order on voxel coordinates. -/
def voxLt (a b : Nat × Nat) : Prop := a.1 < b.1 ∨ (a.1 = b.1 ∧ a.2 < b.2)

instance : DecidableRel voxLt := fun a b => by
  unfold voxLt; infer_instance

theorem mem_rowTrueCols (r : Nat) :
    ∀ (row : List Bool) (c0 : Nat) (p : Nat × Nat),
      p ∈ rowTrueCols r row c0 ↔
        p.1 = r ∧ ∃ j, row.get? j = some true ∧ p.2 = c0 + j := by
  intro row
  induction row with
  | nil => intro c0 p; simp [rowTrueCols]
  | cons b bs ih =>
      intro c0 p
      rw [rowTrueCols, List.mem_append, ih (c0 + 1) p]
      constructor
      · rintro (hp | ⟨h1, j, hj, h2⟩)
        · cases b with
          | false => simp at hp
          | true =>
              simp at hp
              refine ⟨by simp [hp], 0, by simp, by simp [hp]⟩
        · exact ⟨h1, j + 1, by simpa using hj, by omega⟩
      · rintro ⟨h1, j, hj, h2⟩
        cases j with
        | zero =>
            left
            simp at hj
            simp [hj, Prod.ext_iff, h1]
            omega
        | succ j =>
            right
            exact ⟨h1, j, by simpa using hj, by omega⟩

theorem mem_argwhereAux :
    ∀ (rows : List (List Bool)) (r0 : Nat) (p : Nat × Nat),
      p ∈ argwhereAux rows r0 ↔
        ∃ i row, rows.get? i = some row ∧ p.1 = r0 + i ∧
          row.get? p.2 = some true := by
  intro rows
  induction rows with
  | nil => intro r0 p; simp [argwhereAux]
  | cons row rows ih =>
      intro r0 p
      rw [argwhereAux, List.mem_append, ih (r0 + 1) p, mem_rowTrueCols]
      constructor
      · rintro (⟨h1, j, hj, h2⟩ | ⟨i, row2, hi, h1, h2⟩)
        · exact ⟨0, row, by simp, by omega, by simpa [h2] using hj⟩
        · exact ⟨i + 1, row2, by simpa using hi, by omega, h2⟩
      · rintro ⟨i, row2, hi, h1, h2⟩
        cases i with
        | zero =>
            left
            simp at hi
            subst hi
            exact ⟨by omega, p.2, h2, by omega⟩
        | succ i =>
            right
            exact ⟨i, row2, by simpa using hi, by omega, h2⟩

theorem rowTrueCols_bounds (r : Nat) :
    ∀ (row : List Bool) (c0 : Nat) (p : Nat × Nat),
      p ∈ rowTrueCols r row c0 → p.1 = r ∧ c0 ≤ p.2 := by
  intro row c0 p hp
  rw [mem_rowTrueCols] at hp
  obtain ⟨h1, j, _, h2⟩ := hp
  exact ⟨h1, by omega⟩

theorem argwhereAux_bounds :
    ∀ (rows : List (List Bool)) (r0 : Nat) (p : Nat × Nat),
      p ∈ argwhereAux rows r0 → r0 ≤ p.1 := by
  intro rows r0 p hp
  rw [mem_argwhereAux] at hp
  obtain ⟨i, row, _, h1, _⟩ := hp
  omega

theorem pairwise_rowTrueCols (r : Nat) :
    ∀ (row : List Bool) (c0 : Nat), List.Pairwise voxLt (rowTrueCols r row c0) := by
  intro row
  induction row with
  | nil => intro c0; simp [rowTrueCols]
  | cons b bs ih =>
      intro c0
      rw [rowTrueCols]
      cases b with
      | false => simpa using ih (c0 + 1)
      | true =>
          rw [if_pos rfl, List.singleton_append, List.pairwise_cons]
          refine ⟨fun q hq => ?_, ih (c0 + 1)⟩
          obtain ⟨h1, h2⟩ := rowTrueCols_bounds r bs (c0 + 1) q hq
          right
          exact ⟨h1.symm, by omega⟩

theorem pairwise_argwhereAux :
    ∀ (rows : List (List Bool)) (r0 : Nat), List.Pairwise voxLt (argwhereAux rows r0) := by
  intro rows
  induction rows with
  | nil => intro r0; simp [argwhereAux]
  | cons row rows ih =>
      intro r0
      rw [argwhereAux, List.pairwise_append]
      refine ⟨pairwise_rowTrueCols r0 row 0, ih (r0 + 1), fun a ha b hb => ?_⟩
      have h1 := (rowTrueCols_bounds r0 row 0 a ha).1
      have h2 := argwhereAux_bounds rows (r0 + 1) b hb
      left
      omega

/-- C8 (confirmed): for every spatial mask, the spaxel loop of
`CubeTreatment.spatial_mask` visits exactly the coordinates where the mask is
`True`, and the visit list is strictly increasing in row-major
(lexicographic) order — hence deterministic across runs on the same mask. -/
theorem spatial_mask_visits_row_major (m : List (List Bool)) :
    (∀ r c : Nat, (r, c) ∈ argwhere m ↔
        ∃ row, m.get? r = some row ∧ row.get? c = some true) ∧
      List.Pairwise voxLt (argwhere m) := by
  constructor
  · intro r c
    rw [argwhere, mem_argwhereAux]
    constructor
    · rintro ⟨i, row, hi, h1, h2⟩
      simp only [Nat.zero_add] at h1
      subst h1
      exact ⟨row, hi, h2⟩
    · rintro ⟨row, hr, hc⟩
      exact ⟨r, row, hr, by omega, hc⟩
  · exact pairwise_argwhereAux m 0

/-! ## Kinematic ties: `import_line_kinematics` (C3, C4)

Embeds `import_line_kinematics` (`workflow.py` lines 94-144).  The fit
configuration is a Python dict keyed by strings `"{child}_kinem"`,
`"{child}_center"`, `"{child}_center_err"`, `"{child}_sigma"`,
`"{child}_sigma_err"`; keys are embedded as tagged values instead of string
concatenations.  `label_decomposition` lives in `tools.py`, which is not
part of the sources here; it is passed in as the function `wtheo` giving the
theoretical wavelength encoded in a line label.  The textual lmfit
constraint `f'{ratio:0.8f}*{parent}_{param}'` built for sibling ties is
embedded structurally as the ratio and the referenced parameter (the source
formats the ratio into an expression string). -/

inductive KinParam
  | center
  | sigma
deriving DecidableEq, Repr

inductive ConfKey
  | kinem (child : String)
  | kparam (child : String) (p : KinParam)
  | kparamErr (child : String) (p : KinParam)
deriving DecidableEq, Repr

inductive ConfVal
  | parentRef (parent : String)
  | exprTie (ratio : ℚ) (parent : String) (p : KinParam)
  | fixedVal (value : ℚ) (vary : Bool)
  | errVal (value : ℚ)
deriving DecidableEq, Repr

/-- A Python dict as an ordered association list. -/
abbrev FitConf := List (ConfKey × ConfVal)

def confLookup : FitConf → ConfKey → Option ConfVal
  | [], _ => none
  | (k, v) :: rest, key => if k = key then some v else confLookup rest key

/-- Dict assignment: overwrite in place, or append a fresh key. -/
def confSet : FitConf → ConfKey → ConfVal → FitConf
  | [], key, v => [(key, v)]
  | (k, w) :: rest, key, v =>
    if k = key then (k, v) :: rest else (k, w) :: confSet rest key v

/-- One row of the measurements Log restricted to the kinematic columns read
by `import_line_kinematics` (`center`, `center_err`, `sigma`, `sigma_err`). -/
structure LogEntry where
  center : ℚ
  center_err : ℚ
  sigma : ℚ
  sigma_err : ℚ
deriving DecidableEq, Repr

/-- The Log as a label-keyed map (labels are unique by the Log contract). -/
abbrev KinLog := List (String × LogEntry)

def logLookup : KinLog → String → Option LogEntry
  | [], _ => none
  | (l, e) :: rest, label => if l = label then some e else logLookup rest label

/-- Messages emitted through the `LiMe` logger during the import. -/
inductive KinMsg
  | notMeasured (parent child : String)
  | overwritten (child : String) (p : KinParam) (parent : String)
deriving DecidableEq, Repr

/-- The line fields read by `import_line_kinematics`: `profile_label` is
`none` for the source's `'no'`, otherwise the `'-'`-split component list. -/
structure LineK where
  label : String
  profile_label : Option (List String)
  blended_check : Bool
  fit_conf : FitConf
deriving DecidableEq, Repr

def childsList (line : LineK) : List String :=
  match line.profile_label with
  | some l => l
  | none => [line.label]

def kinemRatio (wtheo : String → ℚ) (child parent : String) : ℚ :=
  wtheo child / wtheo parent

/-- One `for param_ext in ('center', 'sigma')` iteration
(`workflow.py` 117-142).  `.error` is the pandas `KeyError` raised by
`log.loc[parent_label, ...]` when the parent is absent from the Log. -/
def importParamStep (wtheo : String → ℚ) (z_cor : ℚ) (log : KinLog)
    (childs : List String) (child parent : String) (p : KinParam)
    (conf : FitConf) (msgs : List KinMsg) :
    Except Unit (FitConf × List KinMsg) :=
  let msgs := if (confLookup conf (.kparam child p)).isSome then
      msgs ++ [.overwritten child p parent] else msgs
  if parent ∈ childs then
    .ok (confSet conf (.kparam child p)
          (.exprTie (kinemRatio wtheo child parent) parent p), msgs)
  else
    match logLookup log parent with
    | none => .error ()
    | some entry =>
        let value : ℚ × ℚ :=
          match p with
          | .center => (kinemRatio wtheo child parent * (entry.center / z_cor),
                        kinemRatio wtheo child parent * (entry.center_err / z_cor))
          | .sigma => (kinemRatio wtheo child parent * entry.sigma,
                       kinemRatio wtheo child parent * entry.sigma_err)
        let conf := confSet conf (.kparam child p) (.fixedVal value.1 false)
        let conf := confSet conf (.kparamErr child p) (.errVal value.2)
        .ok (conf, msgs)

/-- One `for child_label in childs_list` iteration (`workflow.py` 102-142). -/
def importChildStep (wtheo : String → ℚ) (z_cor : ℚ) (log : KinLog)
    (blended : Bool) (childs : List String)
    (st : FitConf × List KinMsg) (child : String) :
    Except Unit (FitConf × List KinMsg) :=
  match confLookup st.1 (.kinem child) with
  | some (.parentRef parent) =>
      if logLookup log parent = none ∧ blended = false then
        .ok (st.1, st.2 ++ [.notMeasured parent child])
      else
        match importParamStep wtheo z_cor log childs child parent .center st.1 st.2 with
        | .error e => .error e
        | .ok s1 => importParamStep wtheo z_cor log childs child parent .sigma s1.1 s1.2
  | some _ => .ok st
  | none => .ok st

def importLoop (wtheo : String → ℚ) (z_cor : ℚ) (log : KinLog) (blended : Bool)
    (childs : List String) :
    List String → FitConf × List KinMsg → Except Unit (FitConf × List KinMsg)
  | [], st => .ok st
  | c :: cs, st =>
    match importChildStep wtheo z_cor log blended childs st c with
    | .error e => .error e
    | .ok st2 => importLoop wtheo z_cor log blended childs cs st2

/-- Embeds `import_line_kinematics(line, z_cor, log, units_wave)`
(`workflow.py` 94-144); the caller passes `z_cor = 1 + redshift`
(`workflow.py` line 225). -/
def import_line_kinematics (wtheo : String → ℚ) (line : LineK) (z_cor : ℚ)
    (log : KinLog) : Except Unit (FitConf × List KinMsg) :=
  importLoop wtheo z_cor log line.blended_check (childsList line)
    (childsList line) (line.fit_conf, [])

theorem confLookup_confSet_same (conf : FitConf) (k : ConfKey) (v : ConfVal) :
    confLookup (confSet conf k v) k = some v := by
  induction conf with
  | nil => simp [confSet, confLookup]
  | cons kv rest ih =>
      obtain ⟨k0, v0⟩ := kv
      by_cases h : k0 = k <;> simp [confSet, confLookup, h, ih]

theorem confLookup_confSet_other (conf : FitConf) (k k' : ConfKey) (v : ConfVal)
    (hne : k' ≠ k) : confLookup (confSet conf k v) k' = confLookup conf k' := by
  have hkk : ¬ k = k' := fun h => hne h.symm
  induction conf with
  | nil => simp [confSet, confLookup, hkk]
  | cons kv rest ih =>
      obtain ⟨k0, v0⟩ := kv
      by_cases h : k0 = k
      · subst h
        simp [confSet, confLookup, hkk]
      · simp [confSet, confLookup, h, ih]

/-- The step `importParamStep` writes only the `kparam`/`kparamErr` keys of its own
child: every `kinem` key and every key of a different child is unchanged. -/
theorem importParamStep_preserves (wtheo : String → ℚ) (z_cor : ℚ)
    (log : KinLog) (childs : List String) (child parent : String) (p : KinParam)
    (conf : FitConf) (msgs : List KinMsg) (st2 : FitConf × List KinMsg)
    (key : ConfKey)
    (h : importParamStep wtheo z_cor log childs child parent p conf msgs = .ok st2)
    (hk1 : ∀ p2, key ≠ ConfKey.kparam child p2)
    (hk2 : ∀ p2, key ≠ ConfKey.kparamErr child p2) :
    confLookup st2.1 key = confLookup conf key := by
  unfold importParamStep at h
  by_cases hm : parent ∈ childs
  · simp only [if_pos hm, Except.ok.injEq] at h
    rw [← h]
    exact confLookup_confSet_other _ _ _ _ (hk1 p)
  · simp only [if_neg hm] at h
    cases he : logLookup log parent with
    | none => rw [he] at h; exact absurd h (by simp)
    | some entry =>
        rw [he] at h
        simp only [Except.ok.injEq] at h
        rw [← h]
        rw [confLookup_confSet_other _ _ _ _ (hk2 p),
            confLookup_confSet_other _ _ _ _ (hk1 p)]

/-- The step `importChildStep` never changes `kinem` entries, nor `kparam`/`kparamErr`
entries belonging to a different child. -/
theorem importChildStep_preserves (wtheo : String → ℚ) (z_cor : ℚ)
    (log : KinLog) (blended : Bool) (childs : List String)
    (st st2 : FitConf × List KinMsg) (c : String) (key : ConfKey)
    (h : importChildStep wtheo z_cor log blended childs st c = .ok st2)
    (hk1 : ∀ p2, key ≠ ConfKey.kparam c p2)
    (hk2 : ∀ p2, key ≠ ConfKey.kparamErr c p2) :
    confLookup st2.1 key = confLookup st.1 key := by
  unfold importChildStep at h
  cases hkin : confLookup st.1 (.kinem c) with
  | none => rw [hkin] at h; simp at h; rw [← h]
  | some v =>
      rw [hkin] at h
      cases v with
      | parentRef parent =>
          dsimp only at h
          by_cases hcond : logLookup log parent = none ∧ blended = false
          · rw [if_pos hcond] at h
            simp only [Except.ok.injEq] at h
            rw [← h]
          · rw [if_neg hcond] at h
            cases hc : importParamStep wtheo z_cor log childs c parent .center st.1 st.2 with
            | error e => rw [hc] at h; simp at h
            | ok s1 =>
                rw [hc] at h
                simp only at h
                rw [importParamStep_preserves wtheo z_cor log childs c parent .sigma
                      s1.1 s1.2 st2 key h hk1 hk2,
                    importParamStep_preserves wtheo z_cor log childs c parent .center
                      st.1 st.2 s1 key hc hk1 hk2]
      | exprTie r pl pp => simp at h; rw [← h]
      | fixedVal a b => simp at h; rw [← h]
      | errVal a => simp at h; rw [← h]

/-- Running `importLoop` over children not owning `key` leaves `key`'s entry
unchanged. -/
theorem importLoop_preserves (wtheo : String → ℚ) (z_cor : ℚ) (log : KinLog)
    (blended : Bool) (childs : List String) (key : ConfKey) :
    ∀ (cs : List String) (st st' : FitConf × List KinMsg),
      importLoop wtheo z_cor log blended childs cs st = .ok st' →
      (∀ x ∈ cs, (∀ p2, key ≠ ConfKey.kparam x p2) ∧
        (∀ p2, key ≠ ConfKey.kparamErr x p2)) →
      confLookup st'.1 key = confLookup st.1 key := by
  intro cs
  induction cs with
  | nil => intro st st' h _; unfold importLoop at h; simp at h; rw [← h]
  | cons c cs ih =>
      intro st st' h hall
      unfold importLoop at h
      cases hc : importChildStep wtheo z_cor log blended childs st c with
      | error e => rw [hc] at h; simp at h
      | ok st2 =>
          rw [hc] at h
          simp only at h
          have h1 := ih st2 st' h (fun x hx => hall x (List.mem_cons_of_mem c hx))
          have h2 := importChildStep_preserves wtheo z_cor log blended childs st st2
            c key hc (hall c (List.mem_cons_self c cs)).1 (hall c (List.mem_cons_self c cs)).2
          rw [h1, h2]

theorem importLoop_cons (wtheo : String → ℚ) (z_cor : ℚ) (log : KinLog)
    (blended : Bool) (childs : List String) (c : String) (cs : List String)
    (st : FitConf × List KinMsg) :
    importLoop wtheo z_cor log blended childs (c :: cs) st =
      match importChildStep wtheo z_cor log blended childs st c with
      | .error e => .error e
      | .ok st2 => importLoop wtheo z_cor log blended childs cs st2 := rfl

/-- Splitting the child loop at an arbitrary point. -/
theorem importLoop_append (wtheo : String → ℚ) (z_cor : ℚ) (log : KinLog)
    (blended : Bool) (childs : List String) :
    ∀ (xs ys : List String) (st : FitConf × List KinMsg),
      importLoop wtheo z_cor log blended childs (xs ++ ys) st =
        match importLoop wtheo z_cor log blended childs xs st with
        | .error e => .error e
        | .ok st2 => importLoop wtheo z_cor log blended childs ys st2 := by
  intro xs
  induction xs with
  | nil => intro ys st; rfl
  | cons x xs ih =>
      intro ys st
      rw [List.cons_append, importLoop_cons, importLoop_cons]
      cases hc : importChildStep wtheo z_cor log blended childs st x with
      | error e => rfl
      | ok st2 =>
          dsimp only
          exact ih ys st2

/-- Processing the focal child with an external parent present in the Log:
both the center and the sigma parameters become fixed (`vary = False`)
values; the center is redshift-corrected (divided by `z_cor`), the sigma is
a pure wavelength-ratio scale. -/
theorem importChildStep_external (wtheo : String → ℚ) (z_cor : ℚ)
    (log : KinLog) (blended : Bool) (childs : List String)
    (st : FitConf × List KinMsg) (child parent : String) (entry : LogEntry)
    (hkin : confLookup st.1 (.kinem child) = some (.parentRef parent))
    (hlog : logLookup log parent = some entry)
    (hsib : parent ∉ childs) :
    ∃ st2, importChildStep wtheo z_cor log blended childs st child = .ok st2 ∧
      confLookup st2.1 (.kparam child .center) =
        some (.fixedVal (kinemRatio wtheo child parent * (entry.center / z_cor)) false) ∧
      confLookup st2.1 (.kparam child .sigma) =
        some (.fixedVal (kinemRatio wtheo child parent * entry.sigma) false) := by
  have hcond : ¬ (logLookup log parent = none ∧ blended = false) := by
    rintro ⟨h1, _⟩; rw [hlog] at h1; exact Option.noConfusion h1
  unfold importChildStep
  rw [hkin]
  dsimp only
  rw [if_neg hcond]
  unfold importParamStep
  simp only [hlog, if_neg hsib]
  refine ⟨_, rfl, ?_, ?_⟩
  · rw [confLookup_confSet_other _ _ _ _ (by simp),
        confLookup_confSet_other _ _ _ _ (by simp),
        confLookup_confSet_other _ _ _ _ (by simp),
        confLookup_confSet_same]
  · rw [confLookup_confSet_other _ _ _ _ (by simp),
        confLookup_confSet_same]

/-- C3 (confirmed): for a line with a kinematic tie to an external parent
that is in the Log and is not a sibling of the current blend, once
`import_line_kinematics` returns (it runs before the solver), the child's
center is fixed (`vary = False`) to `(λ_child/λ_parent) · center_parent /
z_cor` with `z_cor = 1 + redshift`, and the child's sigma is fixed to
`(λ_child/λ_parent) · sigma_parent` with no redshift correction.  The
component list of a blend holds distinct labels (`Nodup`). -/
theorem external_kinematic_tie (wtheo : String → ℚ) (line : LineK) (z_cor : ℚ)
    (log : KinLog) (child parent : String) (entry : LogEntry)
    (st' : FitConf × List KinMsg)
    (hnodup : (childsList line).Nodup)
    (hmem : child ∈ childsList line)
    (hkin : confLookup line.fit_conf (.kinem child) = some (.parentRef parent))
    (hlog : logLookup log parent = some entry)
    (hsib : parent ∉ childsList line)
    (hrun : import_line_kinematics wtheo line z_cor log = .ok st') :
    confLookup st'.1 (.kparam child .center) =
      some (.fixedVal (kinemRatio wtheo child parent * (entry.center / z_cor)) false) ∧
    confLookup st'.1 (.kparam child .sigma) =
      some (.fixedVal (kinemRatio wtheo child parent * entry.sigma) false) := by
  obtain ⟨pre, post, hsplit⟩ := List.append_of_mem hmem
  have hnd : (pre ++ child :: post).Nodup := hsplit ▸ hnodup
  rw [List.nodup_append] at hnd
  have hnotpre : child ∉ pre := fun hc => hnd.2.2 hc (List.mem_cons_self child post)
  have hnotpost : child ∉ post := (List.nodup_cons.mp hnd.2.1).1
  unfold import_line_kinematics at hrun
  rw [hsplit] at hrun hsib
  rw [importLoop_append] at hrun
  cases hpre : importLoop wtheo z_cor log line.blended_check (pre ++ child :: post)
      pre (line.fit_conf, []) with
  | error e => rw [hpre] at hrun; exact absurd hrun (by simp)
  | ok st1 =>
      rw [hpre] at hrun
      dsimp only at hrun
      have hkin1 : confLookup st1.1 (.kinem child) = some (.parentRef parent) := by
        rw [importLoop_preserves wtheo z_cor log line.blended_check
              (pre ++ child :: post) (.kinem child) pre (line.fit_conf, []) st1 hpre
              (fun x _ => ⟨fun p2 hEq => ConfKey.noConfusion hEq,
                fun p2 hEq => ConfKey.noConfusion hEq⟩)]
        exact hkin
      obtain ⟨st2, hstep, hc1, hc2⟩ := importChildStep_external wtheo z_cor log
        line.blended_check (pre ++ child :: post) st1 child parent entry hkin1 hlog hsib
      rw [importLoop_cons, hstep] at hrun
      dsimp only at hrun
      have hxne : ∀ x ∈ post, x ≠ child := fun x hx hEq => hnotpost (hEq ▸ hx)
      constructor
      · rw [importLoop_preserves wtheo z_cor log line.blended_check
              (pre ++ child :: post) (.kparam child .center) post st2 st' hrun
              (fun x hx => ⟨fun p2 hEq => hxne x hx
                  ((ConfKey.kparam.injEq _ _ _ _).mp hEq).1.symm,
                fun p2 hEq => ConfKey.noConfusion hEq⟩)]
        exact hc1
      · rw [importLoop_preserves wtheo z_cor log line.blended_check
              (pre ++ child :: post) (.kparam child .sigma) post st2 st' hrun
              (fun x hx => ⟨fun p2 hEq => hxne x hx
                  ((ConfKey.kparam.injEq _ _ _ _).mp hEq).1.symm,
                fun p2 hEq => ConfKey.noConfusion hEq⟩)]
        exact hc2

def wtC3 : String → ℚ := fun l => if l = "child" then 2 else 1

def lineC3 : LineK := ⟨"child", none, false, [(.kinem "child", .parentRef "parent")]⟩

def logC3 : KinLog := [("parent", ⟨10, 4, 3, 1⟩)]

def stC3 : FitConf × List KinMsg :=
  ([(.kinem "child", .parentRef "parent"),
    (.kparam "child" .center, .fixedVal 10 false),
    (.kparamErr "child" .center, .errVal 4),
    (.kparam "child" .sigma, .fixedVal 6 false),
    (.kparamErr "child" .sigma, .errVal 2)], [])

/-- Witness for `external_kinematic_tie` at a concrete line, Log and
redshift factor. -/
theorem external_kinematic_tie_witness :
    confLookup stC3.1 (.kparam "child" .center) =
      some (.fixedVal (kinemRatio wtC3 "child" "parent" * ((10 : ℚ) / 2)) false) ∧
    confLookup stC3.1 (.kparam "child" .sigma) =
      some (.fixedVal (kinemRatio wtC3 "child" "parent" * (3 : ℚ)) false) :=
  external_kinematic_tie wtC3 lineC3 2 logC3 "child" "parent" ⟨10, 4, 3, 1⟩ stC3
    (by decide) (by decide) (by decide) (by decide) (by decide)
    (by with_unfolding_all decide)

/-- C4 (amended): when the requested external parent line is absent from the
Log and the line is not blended, `import_line_kinematics` does not raise: it
records the informational message that the kinematics were not copied,
leaves the fit configuration unchanged, and returns normally. -/
theorem missing_parent_skips_import (wtheo : String → ℚ) (z_cor : ℚ)
    (log : KinLog) (label parent : String) (conf : FitConf)
    (hkin : confLookup conf (.kinem label) = some (.parentRef parent))
    (hlog : logLookup log parent = none) :
    import_line_kinematics wtheo ⟨label, none, false, conf⟩ z_cor log =
      .ok (conf, [.notMeasured parent label]) := by
  unfold import_line_kinematics childsList
  dsimp only
  rw [importLoop_cons]
  unfold importChildStep
  dsimp only
  rw [hkin]
  dsimp only
  rw [if_pos ⟨hlog, rfl⟩]
  rfl

def lineC4 : LineK :=
  ⟨"H1_4861A", none, false, [(.kinem "H1_4861A", .parentRef "H1_6563A")]⟩

/-- C4 counterexample: a line requesting kinematics from the unmeasured,
non-sibling parent `H1_6563A` does not make `import_line_kinematics` fail
with a `ConfigurationError`: the call returns normally with the
configuration unchanged and only an informational log message. -/
theorem missing_parent_counterexample :
    logLookup ([] : KinLog) "H1_6563A" = none ∧
    lineC4.blended_check = false ∧
    import_line_kinematics (fun _ => 1) lineC4 1 [] =
      .ok (lineC4.fit_conf, [.notMeasured "H1_6563A" "H1_4861A"]) := by
  decide

/-- Witness for `missing_parent_skips_import`. -/
theorem missing_parent_skips_witness :
    import_line_kinematics (fun _ => (1 : ℚ))
        ⟨"a", none, false, [(.kinem "a", .parentRef "b")]⟩ 3 [] =
      .ok ([(.kinem "a", .parentRef "b")], [.notMeasured "b" "a"]) :=
  missing_parent_skips_import _ 3 [] "a" "b" _ (by decide) (by decide)

/-! ## Band review: `review_bands` (C9)

Embeds `review_bands(line, emis_wave, cont_wave, limit_narrow=7)`
(`workflow.py` lines 66-91).  The wavelength selections may be numpy masked
arrays; `MaskedArr` carries the data and the optional per-pixel mask
(`true` = masked out).  The under-half checks only call `_logger.warning`;
only the `emis_band_lengh <= 1` branch touches `line.observations`.  The
Python ratio `emis_band_lengh / emis_wave.size` raises `ZeroDivisionError`
on an empty plain array (an empty array is never `np.ma.is_masked`, so the
numerator is then a plain `int`), modelled as the `.error` case. -/

structure MaskedArr where
  data : List ℚ
  mask : Option (List Bool)
deriving DecidableEq, Repr

def MaskedArr.size (a : MaskedArr) : Nat := a.data.length

/-- Model of `np.ma.is_masked`: a masked array with at least one masked element. -/
def MaskedArr.is_masked (a : MaskedArr) : Bool :=
  match a.mask with
  | none => false
  | some m => m.any id

/-- Model of `np.sum(~arr.mask)`: the number of valid (unmasked) elements. -/
def MaskedArr.validCount (a : MaskedArr) : Nat :=
  match a.mask with
  | none => a.data.length
  | some m => m.countP (fun b => !b)

/-- Definition `emis_band_lengh = emis_wave.size if not np.ma.is_masked(emis_wave) else
np.sum(~emis_wave.mask)` (`workflow.py` 69-70). -/
def bandLength (a : MaskedArr) : Nat :=
  if a.is_masked then a.validCount else a.size

/-- The observation-string update of the `emis_band_lengh <= 1` branch
(`workflow.py` 80-83). -/
def smallBandObs (observations : String) : String :=
  if observations = "no" then "Small_line_band"
  else observations ++ "-Small_line_band"

structure ReviewOut where
  observations : String
  warn_line_few : Bool
  warn_cont_few : Bool
  warn_small : Bool
deriving DecidableEq, Repr

def review_bands (observations : String) (emis_wave cont_wave : MaskedArr) :
    Except Unit ReviewOut :=
  if emis_wave.size = 0 then .error ()
  else if cont_wave.size = 0 then .error ()
  else
    let w1 := decide ((bandLength emis_wave : ℚ) / emis_wave.size < 1 / 2)
    let w2 := decide ((bandLength cont_wave : ℚ) / cont_wave.size < 1 / 2)
    if bandLength emis_wave ≤ 1 then
      .ok ⟨smallBandObs observations, w1, w2, true⟩
    else
      .ok ⟨observations, w1, w2, false⟩

/-- C9 counterexample: a continuum selection keeping 1 of 4 pixels (under
half) while the line selection has 4 valid pixels produces only a logged
warning: the call returns normally but the Line's observation string is NOT
modified, contradicting the claim that the diagnostic is attached to it. -/
theorem review_bands_counterexample :
    review_bands "no" ⟨[1, 2, 3, 4], none⟩
        ⟨[1, 2, 3, 4], some [true, true, true, false]⟩ =
      .ok ⟨"no", false, true, false⟩ ∧
      ((1 : ℚ) / 4 < 1 / 2) := by
  with_unfolding_all decide

/-- C9 (amended): on non-empty band selections `review_bands` returns
normally; the under-half conditions for the line and continuum regions are
reported as logger warnings only, and the observation string is modified —
by appending `Small_line_band` — exactly when the line-region pixel count is
at most 1. -/
theorem review_bands_flags (observations : String) (emis_wave cont_wave : MaskedArr)
    (h1 : 0 < emis_wave.size) (h2 : 0 < cont_wave.size) :
    ∃ out, review_bands observations emis_wave cont_wave = .ok out ∧
      out.warn_line_few =
        decide ((bandLength emis_wave : ℚ) / emis_wave.size < 1 / 2) ∧
      out.warn_cont_few =
        decide ((bandLength cont_wave : ℚ) / cont_wave.size < 1 / 2) ∧
      (bandLength emis_wave ≤ 1 →
        out.observations = smallBandObs observations ∧ out.warn_small = true) ∧
      (1 < bandLength emis_wave →
        out.observations = observations ∧ out.warn_small = false) := by
  unfold review_bands
  rw [if_neg (by omega), if_neg (by omega)]
  by_cases hsmall : bandLength emis_wave ≤ 1
  · rw [if_pos hsmall]
    exact ⟨_, rfl, rfl, rfl, fun _ => ⟨rfl, rfl⟩, fun hgt => absurd hsmall (by omega)⟩
  · rw [if_neg hsmall]
    exact ⟨_, rfl, rfl, rfl, fun hle => absurd hle hsmall, fun _ => ⟨rfl, rfl⟩⟩

/-- Witness for `review_bands_flags` on a one-pixel line band. -/
theorem review_bands_flags_witness :
    ∃ out, review_bands "no" ⟨[7], none⟩ ⟨[1, 2], none⟩ = .ok out ∧
      out.warn_line_few =
        decide ((bandLength ⟨[7], none⟩ : ℚ) / (MaskedArr.size ⟨[7], none⟩) < 1 / 2) ∧
      out.warn_cont_few =
        decide ((bandLength ⟨[1, 2], none⟩ : ℚ) / (MaskedArr.size ⟨[1, 2], none⟩) < 1 / 2) ∧
      (bandLength ⟨[7], none⟩ ≤ 1 →
        out.observations = smallBandObs "no" ∧ out.warn_small = true) ∧
      (1 < bandLength ⟨[7], none⟩ →
        out.observations = "no" ∧ out.warn_small = false) :=
  review_bands_flags "no" ⟨[7], none⟩ ⟨[1, 2], none⟩ (by decide) (by decide)

/-! ## Spectrum state (C7, C10)

Embeds the `Spectrum` attributes handled by `spec_normalization_masking`
(`treatment.py` 140-182), `Spectrum.unit_conversion` (472-563) and
`Spectrum.udpate_redshift` (643-663; the source's method name).  Masked
arrays store their data and mask separately in numpy; here the shared pixel
mask sits in `pixel_mask` and the lists hold the `.data` payload, on which
all numpy arithmetic acts elementwise. -/

structure Spec where
  wave : List ℚ
  wave_rest : List ℚ
  flux : List ℚ
  err_flux : Option (List ℚ)
  pixel_mask : Option (List Bool)
  redshift : ℚ
  norm_flux : ℚ
deriving DecidableEq, Repr

/-- Embeds `spec_normalization_masking(input_wave, input_flux, input_err,
pixel_mask, redshift, norm_flux)` (`treatment.py` 140-182): derives
`wave_rest = input_wave / (1 + redshift)` and divides the flux (and the
uncertainty, when present) by `norm_flux`; the pixel-mask step only wraps
the arrays in masked containers, leaving the data unchanged.  Returns
`(wave, wave_rest, flux, err_flux)`. -/
def spec_normalization_masking (input_wave input_flux : List ℚ)
    (input_err : Option (List ℚ)) (redshift norm_flux : ℚ) :
    List ℚ × List ℚ × List ℚ × Option (List ℚ) :=
  let wave_rest := input_wave.map (fun w => w / (1 + redshift))
  let flux := input_flux.map (fun f => f / norm_flux)
  let err_flux := input_err.map (fun e => e.map (fun x => x / norm_flux))
  (input_wave, wave_rest, flux, err_flux)

/-- Embeds `Spectrum._set_attributes` (`treatment.py` 438-470), after the optional
cropping (which slices all parallel arrays alike): the stored arrays come
from `spec_normalization_masking`. -/
def mkSpectrum (input_wave input_flux : List ℚ) (input_err : Option (List ℚ))
    (pixel_mask : Option (List Bool)) (redshift norm_flux : ℚ) : Spec :=
  let r := spec_normalization_masking input_wave input_flux input_err redshift norm_flux
  ⟨r.1, r.2.1, r.2.2.1, r.2.2.2, pixel_mask, redshift, norm_flux⟩

/-- Branch `if units_wave is not None:` (`treatment.py` 496-515): the new
wavelength array and `wave_rest` re-derived from it. -/
def waveConvStep (convW : Option (ℚ → ℚ)) (s : Spec) : Spec :=
  match convW with
  | none => s
  | some g =>
      let output_wave := s.wave.map g
      { s with wave := output_wave,
               wave_rest := output_wave.map (fun w => w / (1 + s.redshift)) }

/-- Branch `if units_flux is not None:` (`treatment.py` 518-544): the flux
(and uncertainty) converted pointwise against the wavelength array. -/
def fluxConvStep (convF : Option (ℚ → ℚ → ℚ)) (s : Spec) : Spec :=
  match convF with
  | none => s
  | some h =>
      let output_flux := (s.wave.zip s.flux).map (fun p => h p.1 p.2)
      let output_err :=
        s.err_flux.map (fun e => (s.wave.zip e).map (fun p => h p.1 p.2))
      { s with flux := output_flux, err_flux := output_err }

/-- Branch `if norm_flux is not None:` (`treatment.py` 547-561): remove the
old normalization and apply the new one, elementwise
`flux * norm_old / norm_new`; the mask is re-attached unchanged. -/
def normStep (norm_flux : Option ℚ) (s : Spec) : Spec :=
  match norm_flux with
  | none => s
  | some n2 =>
      { s with
          flux := s.flux.map (fun f => f * s.norm_flux / n2),
          err_flux := s.err_flux.map (fun e => e.map (fun x => x * s.norm_flux / n2)),
          norm_flux := n2 }

def Spec.unit_conversion (s : Spec) (convW : Option (ℚ → ℚ))
    (convF : Option (ℚ → ℚ → ℚ)) (norm_flux : Option ℚ) : Spec :=
  normStep norm_flux (fluxConvStep convF (waveConvStep convW s))

/-- Check `np.ma.is_masked(self.wave)`: a pixel mask is attached and masks at
least one pixel. -/
def Spec.wave_masked (s : Spec) : Bool :=
  match s.pixel_mask with
  | none => false
  | some m => m.any id

/-- Embeds `Spectrum.udpate_redshift(redshift)` (`treatment.py` 643-663).  In the
masked branch the source reads `self.err_flux.data`; with no uncertainty
array that is an `AttributeError` on `None` — the `.error` case, raised
before any attribute is mutated.  The arrays are rebuilt by
`spec_normalization_masking` with `norm_flux = 1`. -/
def Spec.udpate_redshift (s : Spec) (redshift : ℚ) : Except Unit Spec :=
  if s.wave_masked = true ∧ s.err_flux = none then .error ()
  else
    let r := spec_normalization_masking s.wave s.flux s.err_flux redshift 1
    .ok { s with redshift := redshift, wave := r.1, wave_rest := r.2.1,
                 flux := r.2.2.1, err_flux := r.2.2.2 }

/-- The C7 invariant: `wave_rest` is exactly the stored wavelength array
divided elementwise by `1 + redshift`, and all parallel sequences share the
wavelength array's length. -/
def specInvariant (s : Spec) : Prop :=
  s.wave_rest = s.wave.map (fun w => w / (1 + s.redshift)) ∧
  s.wave_rest.length = s.wave.length ∧
  s.flux.length = s.wave.length ∧
  (∀ e ∈ s.err_flux, e.length = s.wave.length)

theorem mkSpectrum_invariant (iw ifl : List ℚ) (ie : Option (List ℚ))
    (pm : Option (List Bool)) (z n : ℚ)
    (hlen1 : ifl.length = iw.length)
    (hlen2 : ∀ e ∈ ie, e.length = iw.length) :
    specInvariant (mkSpectrum iw ifl ie pm z n) := by
  refine ⟨rfl, by simp [mkSpectrum, spec_normalization_masking],
    by simp [mkSpectrum, spec_normalization_masking, hlen1], ?_⟩
  intro e he
  cases ie with
  | none => cases he
  | some e0 =>
      simp [mkSpectrum, spec_normalization_masking] at he
      subst he
      simpa using hlen2 e0 rfl

theorem waveConvStep_invariant (convW : Option (ℚ → ℚ)) (s : Spec)
    (hs : specInvariant s) : specInvariant (waveConvStep convW s) := by
  obtain ⟨w, wr, fl, ef, pm, z, nf⟩ := s
  obtain ⟨h1, h2, h3, h4⟩ := hs
  cases convW with
  | none => exact ⟨h1, h2, h3, h4⟩
  | some g =>
      have heq : waveConvStep (some g) ⟨w, wr, fl, ef, pm, z, nf⟩ =
          ⟨w.map g, (w.map g).map (fun x => x / (1 + z)), fl, ef, pm, z, nf⟩ := rfl
      rw [heq]
      refine ⟨rfl, by simp, by simpa using h3, ?_⟩
      intro e he
      simpa using h4 e he

theorem fluxConvStep_invariant (convF : Option (ℚ → ℚ → ℚ)) (s : Spec)
    (hs : specInvariant s) : specInvariant (fluxConvStep convF s) := by
  obtain ⟨w, wr, fl, ef, pm, z, nf⟩ := s
  obtain ⟨h1, h2, h3, h4⟩ := hs
  cases convF with
  | none => exact ⟨h1, h2, h3, h4⟩
  | some h =>
      have heq : fluxConvStep (some h) ⟨w, wr, fl, ef, pm, z, nf⟩ =
          ⟨w, wr, (w.zip fl).map (fun p => h p.1 p.2),
            ef.map (fun e => (w.zip e).map (fun p => h p.1 p.2)), pm, z, nf⟩ := rfl
      rw [heq]
      have h3w : fl.length = w.length := by simpa using h3
      refine ⟨by simpa using h1, by simpa using h2, ?_, ?_⟩
      · simp [h3w]
      · intro e he
        cases ef with
        | none => simp at he
        | some e0 =>
            have he2 : e0.length = w.length := by simpa using h4 e0 rfl
            simp only [Option.map_some'] at he
            rw [Option.mem_def, Option.some_inj] at he
            subst he
            simp [he2]

theorem normStep_invariant (nf0 : Option ℚ) (s : Spec)
    (hs : specInvariant s) : specInvariant (normStep nf0 s) := by
  obtain ⟨w, wr, fl, ef, pm, z, nf⟩ := s
  obtain ⟨h1, h2, h3, h4⟩ := hs
  cases nf0 with
  | none => exact ⟨h1, h2, h3, h4⟩
  | some n2 =>
      have heq : normStep (some n2) ⟨w, wr, fl, ef, pm, z, nf⟩ =
          ⟨w, wr, fl.map (fun f => f * nf / n2),
            ef.map (fun e => e.map (fun x => x * nf / n2)), pm, z, n2⟩ := rfl
      rw [heq]
      refine ⟨by simpa using h1, by simpa using h2, by simpa using h3, ?_⟩
      intro e he
      cases ef with
      | none => simp at he
      | some e0 =>
          have he2 : e0.length = w.length := by simpa using h4 e0 rfl
          simp only [Option.map_some'] at he
          rw [Option.mem_def, Option.some_inj] at he
          subst he
          simp [he2]

theorem udpate_redshift_invariant (s : Spec) (z2 : ℚ) (s2 : Spec)
    (hs : specInvariant s) (hupd : s.udpate_redshift z2 = .ok s2) :
    specInvariant s2 := by
  obtain ⟨w, wr, fl, ef, pm, z, nf⟩ := s
  obtain ⟨h1, h2, h3, h4⟩ := hs
  unfold Spec.udpate_redshift at hupd
  split at hupd
  · exact absurd hupd (by simp)
  · simp only [Except.ok.injEq] at hupd
    have hs2 : s2 = ⟨w, w.map (fun x => x / (1 + z2)), fl.map (fun x => x / 1),
        ef.map (fun e => e.map (fun x => x / 1)), pm, z2, nf⟩ := by
      rw [← hupd]; rfl
    rw [hs2]
    refine ⟨rfl, by simp, by simpa using h3, ?_⟩
    intro e he
    cases ef with
    | none => simp at he
    | some e0 =>
        have he2 : e0.length = w.length := by simpa using h4 e0 rfl
        simp only [Option.map_some'] at he
        rw [Option.mem_def, Option.some_inj] at he
        subst he
        simp [he2]

/-- C7 (confirmed): after construction, after `unit_conversion` with any
combination of dispersion/flux conversions and renormalization, and after a
successful `udpate_redshift`, the stored `wave_rest` equals
`wave / (1 + redshift)` elementwise — re-derived from the stored wavelength
array — and all parallel sequences (`wave`, `wave_rest`, `flux`, and
`err_flux` when present) share one length. -/
theorem wave_rest_derived_invariant
    (iw ifl : List ℚ) (ie : Option (List ℚ)) (pm : Option (List Bool)) (z n : ℚ)
    (s : Spec) (convW : Option (ℚ → ℚ)) (convF : Option (ℚ → ℚ → ℚ))
    (nf : Option ℚ) (z2 : ℚ) (s2 : Spec)
    (hlen1 : ifl.length = iw.length)
    (hlen2 : ∀ e ∈ ie, e.length = iw.length)
    (hs : specInvariant s)
    (hupd : s.udpate_redshift z2 = .ok s2) :
    specInvariant (mkSpectrum iw ifl ie pm z n) ∧
    specInvariant (s.unit_conversion convW convF nf) ∧
    specInvariant s2 :=
  ⟨mkSpectrum_invariant iw ifl ie pm z n hlen1 hlen2,
   normStep_invariant nf _ (fluxConvStep_invariant convF _
     (waveConvStep_invariant convW s hs)),
   udpate_redshift_invariant s z2 s2 hs hupd⟩

/-- Witness for `wave_rest_derived_invariant` on concrete spectra. -/
theorem wave_rest_derived_witness :
    specInvariant (mkSpectrum [5] [10] none none 0 2) ∧
    specInvariant (Spec.unit_conversion ⟨[2], [2], [2], some [3], none, 0, 2⟩
      (some (fun x => x + 1)) (some (fun w f => w * f)) (some 3)) ∧
    specInvariant ⟨[2], [1], [2], some [3], none, 1, 2⟩ :=
  wave_rest_derived_invariant [5] [10] none none 0 2
    ⟨[2], [2], [2], some [3], none, 0, 2⟩ (some (fun x => x + 1))
    (some (fun w f => w * f)) (some 3) 1 ⟨[2], [1], [2], some [3], none, 1, 2⟩
    (by decide) (by intro e he; simp at he)
    ⟨by with_unfolding_all decide, by decide, by decide,
     by intro e he; rw [Option.mem_def, Option.some_inj] at he; subst he; rfl⟩
    (by with_unfolding_all decide)

/-- C10 (confirmed): `unit_conversion` called with only a new normalization
`n2` rescales the stored flux (and uncertainty) elementwise by
`norm_old / n2` (as `flux * norm_old / n2`), sets `norm_flux := n2`, leaves
the pixel mask unchanged, and keeps the denormalized quantities
`flux * norm_flux` and `err_flux * norm_flux` invariant. -/
theorem renormalization_rescale (s : Spec) (n2 : ℚ)
    (hn1 : 0 < s.norm_flux) (hn2 : 0 < n2) :
    (s.unit_conversion none none (some n2)).flux
        = s.flux.map (fun f => f * s.norm_flux / n2) ∧
    (s.unit_conversion none none (some n2)).err_flux
        = s.err_flux.map (fun e => e.map (fun x => x * s.norm_flux / n2)) ∧
    (s.unit_conversion none none (some n2)).norm_flux = n2 ∧
    (s.unit_conversion none none (some n2)).pixel_mask = s.pixel_mask ∧
    (s.unit_conversion none none (some n2)).flux.map
        (fun f => f * (s.unit_conversion none none (some n2)).norm_flux)
      = s.flux.map (fun f => f * s.norm_flux) ∧
    (s.unit_conversion none none (some n2)).err_flux.map
        (fun e => e.map
          (fun x => x * (s.unit_conversion none none (some n2)).norm_flux))
      = s.err_flux.map (fun e => e.map (fun x => x * s.norm_flux)) := by
  have hmap : ∀ l : List ℚ,
      (l.map (fun f => f * s.norm_flux / n2)).map (fun f => f * n2)
        = l.map (fun f => f * s.norm_flux) := by
    intro l
    rw [List.map_map]
    congr 1
    funext x
    show x * s.norm_flux / n2 * n2 = x * s.norm_flux
    rw [div_mul_cancel₀ _ hn2.ne']
  refine ⟨rfl, rfl, rfl, rfl, hmap s.flux, ?_⟩
  show (Option.map (fun e => e.map (fun x => x * s.norm_flux / n2)) s.err_flux).map
        (fun e => e.map (fun x => x * n2))
      = s.err_flux.map (fun e => e.map (fun x => x * s.norm_flux))
  cases s.err_flux with
  | none => rfl
  | some e0 => exact congrArg some (hmap e0)

/-- Witness for `renormalization_rescale` at a concrete spectrum. -/
theorem renormalization_rescale_witness :
    (Spec.unit_conversion ⟨[1], [1], [6], some [4], none, 0, 2⟩
          none none (some 4)).flux
        = ([6] : List ℚ).map (fun f => f * 2 / 4) ∧
    (Spec.unit_conversion ⟨[1], [1], [6], some [4], none, 0, 2⟩
          none none (some 4)).err_flux
        = (some [4] : Option (List ℚ)).map (fun e => e.map (fun x => x * 2 / 4)) ∧
    (Spec.unit_conversion ⟨[1], [1], [6], some [4], none, 0, 2⟩
          none none (some 4)).norm_flux = 4 ∧
    (Spec.unit_conversion ⟨[1], [1], [6], some [4], none, 0, 2⟩
          none none (some 4)).pixel_mask = none ∧
    (Spec.unit_conversion ⟨[1], [1], [6], some [4], none, 0, 2⟩
          none none (some 4)).flux.map
        (fun f => f * (Spec.unit_conversion ⟨[1], [1], [6], some [4], none, 0, 2⟩
          none none (some 4)).norm_flux)
      = ([6] : List ℚ).map (fun f => f * 2) ∧
    (Spec.unit_conversion ⟨[1], [1], [6], some [4], none, 0, 2⟩
          none none (some 4)).err_flux.map
        (fun e => e.map (fun x =>
          x * (Spec.unit_conversion ⟨[1], [1], [6], some [4], none, 0, 2⟩
            none none (some 4)).norm_flux))
      = (some [4] : Option (List ℚ)).map (fun e => e.map (fun x => x * 2)) :=
  renormalization_rescale ⟨[1], [1], [6], some [4], none, 0, 2⟩ 4
    (by with_unfolding_all decide) (by with_unfolding_all decide)

/-! ## Global continuum estimation: `SpecTreatment.continuum` (C5, C6)

Embeds `SpecTreatment.continuum(degree_list, threshold_list, plot_steps)`
(`workflow.py` lines 319-358).  Per iteration the source computes 16th/84th
percentile bounds of the presently unmasked flux, scales them by the
iteration's threshold (`low/t`, `high*t`), intersects the usable-sample mask
with the in-bounds samples, and only then fits the polynomial of the current
degree to the samples under the updated mask.

External collaborators modelled from their documented behaviour:
`np.percentile` (linear interpolation of order statistics);
`PolynomialModel.guess`, which calls `np.polyfit` and raises an uncaught
`TypeError` on an empty sample vector; `PolynomialModel.fit`, whose
underlying `scipy.optimize.leastsq` raises `TypeError` when the parameter
count `degree + 1` exceeds the sample count — exactly the error the
source catches at lines 342-348 ("polynomial has more degrees than data
points") — and otherwise returns a fitted polynomial, abstracted by the
parameter `fitpoly : degree → xs → ys → coefficients`.  `np.std` of an empty
selection and all arithmetic on the NaN continuum produce NaN, modelled as
`none`.  The `plot_steps` branch (line 353) reads the local `poly3Out`,
which is unbound — `UnboundLocalError` — when no iteration has yet fitted
successfully. -/

inductive PyErr
  | typeErr
  | nameErr
  | indexErr
  | valueErr
deriving DecidableEq, Repr

/-- The spectrum's `cont` attribute: not yet assigned (`None`), the all-NaN
array of line 348, or a real continuum array. -/
inductive ContVal
  | unset
  | nanArr
  | arr (c : List ℚ)
deriving DecidableEq, Repr

/-- Boolean-mask indexing `arr[mask]` of numpy. -/
def maskSelect (mask : List Bool) (xs : List ℚ) : List ℚ :=
  ((xs.zip mask).filter (fun p => p.2)).map (fun p => p.1)

/-- Model of `np.percentile(a, q)` with the default linear interpolation:
`h = (n-1)*q/100`, lower order statistic at `floor h`, linear blend with the
next one. -/
def percentile (xs : List ℚ) (q : ℚ) : ℚ :=
  let s := xs.insertionSort (· ≤ ·)
  let h : ℚ := ((s.length : ℚ) - 1) * q / 100
  let i : ℕ := (Int.floor h).toNat
  let lo := s.getD i 0
  let hi := s.getD (i + 1) lo
  lo + (h - (i : ℚ)) * (hi - lo)

/-- Polynomial evaluation (`poly3Out.eval`); coefficients by increasing
degree. -/
def polyEval (coeffs : List ℚ) (x : ℚ) : ℚ :=
  coeffs.foldr (fun c acc => c + x * acc) 0

/-- One mask expansion (`workflow.py` 333-337): percentile bounds of the
presently unmasked flux scaled by the threshold, then
`mask_cont & (flux >= low) & (flux <= high)`. -/
def maskStep (input_flux : List ℚ) (mask : List Bool) (threshold : ℚ) : List Bool :=
  let sel := maskSelect mask input_flux
  let low_lim := percentile sel 16 / threshold
  let high_lim := percentile sel 84 * threshold
  List.zipWith (fun m f => m && decide (low_lim ≤ f) && decide (f ≤ high_lim))
    mask input_flux

/-- The usable-sample masks before each iteration (and after the last):
`maskSeq f m0 ts = [m0, maskStep f m0 t0, ...]`. -/
def maskSeq (input_flux : List ℚ) (mask0 : List Bool) : List ℚ → List (List Bool)
  | [] => [mask0]
  | t :: ts => mask0 :: maskSeq input_flux (maskStep input_flux mask0 t) ts

/-- The final usable-sample mask after a list of iterations. -/
def foldMask (input_flux : List ℚ) (mask0 : List Bool) (ts : List ℚ) : List Bool :=
  ts.foldl (maskStep input_flux) mask0

/-- The mutable state of the iteration: the mask, `self._spec.cont`, the
function-local `poly3Out` (unbound while `none`) and whether the
degree-overflow warning fired. -/
structure ContState where
  mask_cont : List Bool
  cont : ContVal
  lastFit : Option (List ℚ)
  warned : Bool
deriving DecidableEq, Repr

/-- One `for i, degree in enumerate(degree_list)` iteration
(`workflow.py` 330-354). -/
def contStep (fitpoly : ℕ → List ℚ → List ℚ → List ℚ)
    (input_wave input_flux : List ℚ) (plot_steps : Bool)
    (st : ContState) (degree : ℕ) (threshold : ℚ) : Except PyErr ContState :=
  if (maskSelect st.mask_cont input_flux).length = 0 then .error .valueErr
  else
    let mask2 := maskStep input_flux st.mask_cont threshold
    let selF := maskSelect mask2 input_flux
    let selW := maskSelect mask2 input_wave
    if selF.length = 0 then .error .typeErr
    else
      let st2 :=
        if degree + 1 > selF.length then
          { st with mask_cont := mask2, cont := .nanArr, warned := true }
        else
          let coeffs := fitpoly degree selW selF
          { mask_cont := mask2, cont := .arr (input_wave.map (polyEval coeffs)),
            lastFit := some coeffs, warned := st.warned }
      if plot_steps && st2.lastFit.isNone then .error .nameErr
      else .ok st2

/-- The iteration loop; a missing threshold is the Python `IndexError` of
`threshold_list[i]` (line 334), raised after that iteration's percentile
call (line 333). -/
def contLoop (fitpoly : ℕ → List ℚ → List ℚ → List ℚ)
    (input_wave input_flux : List ℚ) (plot_steps : Bool) :
    List ℕ → List ℚ → ContState → Except PyErr ContState
  | [], _, st => .ok st
  | _ :: _, [], st =>
      if (maskSelect st.mask_cont input_flux).length = 0 then .error .valueErr
      else .error .indexErr
  | d :: ds, t :: ts, st =>
      match contStep fitpoly input_wave input_flux plot_steps st d t with
      | .error e => .error e
      | .ok st2 => contLoop fitpoly input_wave input_flux plot_steps ds ts st2

/-- Population variance (the square of `np.std`); `none` is numpy's NaN on
an empty selection. -/
def listVariance (xs : List ℚ) : Option ℚ :=
  if xs.length = 0 then none
  else
    let n : ℚ := xs.length
    let m := xs.sum / n
    some ((xs.map (fun x => (x - m) ^ 2)).sum / n)

structure ContResult where
  mask_final : List Bool
  cont : ContVal
  cont_var : Option ℚ
  warned : Bool
deriving DecidableEq, Repr

/-- Line 357: `cont_std = np.std((flux - cont)[mask_cont])`.  With `cont`
never assigned (empty degree list) the subtraction is the Python `TypeError`
on `None`; with the all-NaN continuum the result is NaN. -/
def contFinish (input_flux : List ℚ) (st : ContState) : Except PyErr ContResult :=
  match st.cont with
  | .unset => .error .typeErr
  | .nanArr => .ok ⟨st.mask_cont, .nanArr, none, st.warned⟩
  | .arr c =>
      let res := maskSelect st.mask_cont (List.zipWith (fun a b => a - b) input_flux c)
      .ok ⟨st.mask_cont, .arr c, listVariance res, st.warned⟩

/-- The initial usable-sample mask (`workflow.py` 322-327): the complement
of the flux pixel mask when the flux is a masked array with at least one
masked pixel, else all-ones. -/
def initMask (flux_mask : Option (List Bool)) (input_flux : List ℚ) : List Bool :=
  match flux_mask with
  | some m => if m.any id then m.map (fun b => !b)
              else List.replicate input_flux.length true
  | none => List.replicate input_flux.length true

/-- Embeds `SpecTreatment.continuum` (`workflow.py` 319-358) over the
spectrum's flux data and optional pixel mask. -/
def continuum_model (fitpoly : ℕ → List ℚ → List ℚ → List ℚ)
    (input_wave input_flux : List ℚ) (flux_mask : Option (List Bool))
    (degree_list : List ℕ) (threshold_list : List ℚ) (plot_steps : Bool) :
    Except PyErr ContResult :=
  match contLoop fitpoly input_wave input_flux plot_steps degree_list threshold_list
      ⟨initMask flux_mask input_flux, .unset, none, false⟩ with
  | .error e => .error e
  | .ok st => contFinish input_flux st

/-- Degree-0 least-squares fit: the constant minimizing the squared
residuals is the sample mean.  A concrete instance of the pluggable fit used
to compare iteration orders on explicit inputs. -/
def meanFit : ℕ → List ℚ → List ℚ → List ℚ :=
  fun _ _ ys => [ys.sum / (ys.length : ℚ)]

/-- The global continuum iteration AS CLAIM C6 DESCRIBES IT: each iteration
first refits the polynomial of the current degree to the presently unmasked
samples, and only then computes the percentile bounds and expands the
exclusion mask.  Written from the claim's words, for comparison with
`continuum_model`. -/
def claimStep (fitpoly : ℕ → List ℚ → List ℚ → List ℚ)
    (input_wave input_flux : List ℚ)
    (st : List Bool × ContVal) (degree : ℕ) (threshold : ℚ) :
    List Bool × ContVal :=
  let coeffs := fitpoly degree (maskSelect st.1 input_wave) (maskSelect st.1 input_flux)
  (maskStep input_flux st.1 threshold, ContVal.arr (input_wave.map (polyEval coeffs)))

/-- The whole-spectrum continuum estimate under claim C6's iteration order,
with the final polynomial over the full grid and the residual deviation over
the final unmasked samples. -/
def continuum_claim_order (fitpoly : ℕ → List ℚ → List ℚ → List ℚ)
    (input_wave input_flux : List ℚ) (flux_mask : Option (List Bool))
    (degree_list : List ℕ) (threshold_list : List ℚ) : ContResult :=
  let st := (degree_list.zip threshold_list).foldl
    (fun st p => claimStep fitpoly input_wave input_flux st p.1 p.2)
    (initMask flux_mask input_flux, ContVal.unset)
  match st.2 with
  | .arr c => ⟨st.1, .arr c,
      listVariance (maskSelect st.1 (List.zipWith (fun a b => a - b) input_flux c)),
      false⟩
  | v => ⟨st.1, v, none, false⟩

set_option maxRecDepth 16000 in
/-- C5 counterexample: with the default `plot_steps=True`, a degree overflow
in the first iteration (degree 5 against 3 usable samples) is caught by the
`except TypeError`, but the plotting step then reads the local `poly3Out`,
never assigned — an uncaught `UnboundLocalError`: the call raises, contrary
to the claim that it never raises. -/
theorem continuum_plot_raises_counterexample :
    continuum_model (fun _ _ _ => []) [1, 2, 3] [1, 2, 3] none [5] [10] true
      = .error .nameErr := by
  with_unfolding_all decide

set_option maxRecDepth 16000 in
/-- C6 counterexample: with a single (degree 0, threshold 1) pair on flux
`[0, 0, 0, 100]`, the code expands the mask (bounds 0 and 52 exclude the
outlier 100) BEFORE fitting, giving the constant continuum 0; the claim's
order (fit to the presently unmasked samples, then expand) gives the
constant 25.  The stored continua differ. -/
theorem continuum_fit_order_counterexample :
    continuum_model meanFit [0, 1, 2, 3] [0, 0, 0, 100] none [0] [1] false
        = .ok ⟨[true, true, true, false], .arr [0, 0, 0, 0], some 0, false⟩ ∧
      continuum_claim_order meanFit [0, 1, 2, 3] [0, 0, 0, 100] none [0] [1]
        = ⟨[true, true, true, false], .arr [25, 25, 25, 25], some 0, false⟩ ∧
      ContVal.arr ([0, 0, 0, 0] : List ℚ) ≠ ContVal.arr [25, 25, 25, 25] := by
  with_unfolding_all decide

theorem contLoop_cons (fitpoly : ℕ → List ℚ → List ℚ → List ℚ)
    (w f : List ℚ) (ps : Bool) (d : ℕ) (ds : List ℕ) (t : ℚ) (ts : List ℚ)
    (st : ContState) :
    contLoop fitpoly w f ps (d :: ds) (t :: ts) st =
      match contStep fitpoly w f ps st d t with
      | .error e => .error e
      | .ok st2 => contLoop fitpoly w f ps ds ts st2 := rfl

theorem foldMask_cons (f : List ℚ) (m : List Bool) (t : ℚ) (ts : List ℚ) :
    foldMask f m (t :: ts) = foldMask f (maskStep f m t) ts := rfl

theorem foldMask_append (f : List ℚ) (m : List Bool) (ts1 ts2 : List ℚ) :
    foldMask f m (ts1 ++ ts2) = foldMask f (foldMask f m ts1) ts2 := by
  simp [foldMask, List.foldl_append]

theorem maskSeq_cons (f : List ℚ) (m : List Bool) (t : ℚ) (ts : List ℚ) :
    maskSeq f m (t :: ts) = m :: maskSeq f (maskStep f m t) ts := rfl

theorem foldMask_mem_maskSeq (f : List ℚ) :
    ∀ (ts : List ℚ) (m : List Bool), foldMask f m ts ∈ maskSeq f m ts := by
  intro ts
  induction ts with
  | nil => intro m; simp [maskSeq, foldMask]
  | cons t ts ih =>
      intro m
      rw [maskSeq_cons, foldMask_cons]
      exact List.mem_cons_of_mem _ (ih _)

theorem maskSeq_append_single (f : List ℚ) :
    ∀ (ts1 : List ℚ) (m : List Bool) (t : ℚ),
      maskSeq f m (ts1 ++ [t]) =
        maskSeq f m ts1 ++ [maskStep f (foldMask f m ts1) t] := by
  intro ts1
  induction ts1 with
  | nil => intro m t; rfl
  | cons t1 ts ih =>
      intro m t
      rw [List.cons_append, maskSeq_cons, ih, maskSeq_cons, foldMask_cons,
          List.cons_append]

/-- With plotting disabled and both selections non-empty, one continuum
iteration cannot raise: a degree overflow is caught (`cont := NaN`, warning
flag), otherwise the polynomial is fitted on the updated mask. -/
theorem contStep_ok_of_ne (fitpoly : ℕ → List ℚ → List ℚ → List ℚ)
    (w f : List ℚ) (st : ContState) (d : ℕ) (t : ℚ)
    (h1 : (maskSelect st.mask_cont f).length ≠ 0)
    (h2 : (maskSelect (maskStep f st.mask_cont t) f).length ≠ 0) :
    contStep fitpoly w f false st d t = .ok (
      if d + 1 > (maskSelect (maskStep f st.mask_cont t) f).length then
        { st with mask_cont := maskStep f st.mask_cont t, cont := .nanArr,
                  warned := true }
      else
        { mask_cont := maskStep f st.mask_cont t,
          cont := .arr (w.map (polyEval (fitpoly d
            (maskSelect (maskStep f st.mask_cont t) w)
            (maskSelect (maskStep f st.mask_cont t) f)))),
          lastFit := some (fitpoly d (maskSelect (maskStep f st.mask_cont t) w)
            (maskSelect (maskStep f st.mask_cont t) f)),
          warned := st.warned }) := by
  unfold contStep
  rw [if_neg h1]
  dsimp only
  rw [if_neg h2]
  by_cases hov : d + 1 > (maskSelect (maskStep f st.mask_cont t) f).length
  · rw [if_pos hov]
    rfl
  · rw [if_neg hov]
    rfl

/-- The loop with plotting disabled, run over iterations whose selections
all stay non-empty, returns normally; the final mask is the fold of the mask
expansions, and if no iteration's degree overflowed its sample count the
warning flag is untouched. -/
theorem contLoop_ok (fitpoly : ℕ → List ℚ → List ℚ → List ℚ) (w f : List ℚ) :
    ∀ (ds : List ℕ) (ts : List ℚ) (st : ContState),
      ds.length ≤ ts.length →
      (∀ m ∈ maskSeq f st.mask_cont (ts.take ds.length),
        (maskSelect m f).length ≠ 0) →
      ∃ st' : ContState, contLoop fitpoly w f false ds ts st = .ok st' ∧
        st'.mask_cont = foldMask f st.mask_cont (ts.take ds.length) ∧
        ((∀ p ∈ ds.zip ((maskSeq f st.mask_cont (ts.take ds.length)).tail),
            p.1 + 1 ≤ (maskSelect p.2 f).length) →
          st'.warned = st.warned) := by
  intro ds
  induction ds with
  | nil =>
      intro ts st _ _
      exact ⟨st, rfl, rfl, fun _ => rfl⟩
  | cons d ds ih =>
      intro ts st hlen hne
      cases ts with
      | nil => simp at hlen
      | cons t ts =>
          have htake : (t :: ts).take (d :: ds).length = t :: ts.take ds.length := rfl
          rw [htake, maskSeq_cons] at hne
          have h1 : (maskSelect st.mask_cont f).length ≠ 0 :=
            hne st.mask_cont (List.mem_cons_self _ _)
          have hnetail : ∀ m ∈ maskSeq f (maskStep f st.mask_cont t) (ts.take ds.length),
              (maskSelect m f).length ≠ 0 :=
            fun m hm => hne m (List.mem_cons_of_mem _ hm)
          obtain ⟨l2, hl2⟩ : ∃ l2, maskSeq f (maskStep f st.mask_cont t) (ts.take ds.length)
              = maskStep f st.mask_cont t :: l2 := by
            cases ts.take ds.length with
            | nil => exact ⟨[], rfl⟩
            | cons a l => exact ⟨_, rfl⟩
          have h2 : (maskSelect (maskStep f st.mask_cont t) f).length ≠ 0 :=
            hnetail _ (by rw [hl2]; exact List.mem_cons_self _ _)
          rw [contLoop_cons, contStep_ok_of_ne fitpoly w f st d t h1 h2]
          dsimp only
          by_cases hov : d + 1 > (maskSelect (maskStep f st.mask_cont t) f).length
          · rw [if_pos hov]
            obtain ⟨st', hrun, hmask, hwarn⟩ := ih ts
              { st with mask_cont := maskStep f st.mask_cont t, cont := .nanArr,
                        warned := true }
              (Nat.le_of_succ_le_succ hlen) hnetail
            refine ⟨st', hrun, by rw [hmask]; rfl, ?_⟩
            intro hnov
            exfalso
            have hp := hnov (d, maskStep f st.mask_cont t) ?_
            · dsimp only at hp
              omega
            · rw [htake, maskSeq_cons, List.tail_cons, hl2]
              exact List.mem_cons_self _ _
          · rw [if_neg hov]
            obtain ⟨st', hrun, hmask, hwarn⟩ := ih ts
              { mask_cont := maskStep f st.mask_cont t,
                cont := .arr (w.map (polyEval (fitpoly d
                  (maskSelect (maskStep f st.mask_cont t) w)
                  (maskSelect (maskStep f st.mask_cont t) f)))),
                lastFit := some (fitpoly d (maskSelect (maskStep f st.mask_cont t) w)
                  (maskSelect (maskStep f st.mask_cont t) f)),
                warned := st.warned }
              (Nat.le_of_succ_le_succ hlen) hnetail
            refine ⟨st', hrun, by rw [hmask]; rfl, ?_⟩
            intro hnov
            have hw := hwarn ?_
            · rw [hw]
            · intro p hp
              apply hnov
              rw [htake, maskSeq_cons, List.tail_cons, hl2]
              dsimp only at hp
              rw [hl2, List.tail_cons] at hp
              exact List.mem_cons_of_mem _ hp

theorem contLoop_append (fitpoly : ℕ → List ℚ → List ℚ → List ℚ)
    (w f : List ℚ) (ps : Bool) :
    ∀ (ds1 : List ℕ) (ts1 : List ℚ) (ds2 : List ℕ) (ts2 : List ℚ) (st : ContState),
      ds1.length = ts1.length →
      contLoop fitpoly w f ps (ds1 ++ ds2) (ts1 ++ ts2) st =
        match contLoop fitpoly w f ps ds1 ts1 st with
        | .error e => .error e
        | .ok st2 => contLoop fitpoly w f ps ds2 ts2 st2 := by
  intro ds1
  induction ds1 with
  | nil =>
      intro ts1 ds2 ts2 st hlen
      cases ts1 with
      | nil => rfl
      | cons a l => simp at hlen
  | cons d ds ih =>
      intro ts1 ds2 ts2 st hlen
      cases ts1 with
      | nil => simp at hlen
      | cons t ts =>
          rw [List.cons_append, List.cons_append, contLoop_cons, contLoop_cons]
          cases contStep fitpoly w f ps st d t with
          | error e => rfl
          | ok st2 =>
              dsimp only
              exact ih ts ds2 ts2 st2 (by simpa using hlen)

/-- C5 (amended): with intermediate-step plotting disabled
(`plot_steps=False`), a threshold list covering the degree list, and every
iteration retaining at least one usable sample, a final-iteration polynomial
degree at or above the usable-sample count does not raise: the fit's
`TypeError` is caught, the warning is emitted (`warned = true`), the
spectrum's continuum is set to the all-NaN array and the stored noise
estimate is NaN, and the call returns normally.  (With the default
`plot_steps=True` a first-iteration overflow raises instead — see the
counterexample — and a fully masked selection would raise inside the
uncaught `guess`.) -/
theorem continuum_degree_overflow_graceful
    (fitpoly : ℕ → List ℚ → List ℚ → List ℚ)
    (input_wave input_flux : List ℚ) (flux_mask : Option (List Bool))
    (ds : List ℕ) (d : ℕ) (ts : List ℚ)
    (hlen : ds.length + 1 ≤ ts.length)
    (hne : ∀ m ∈ maskSeq input_flux (initMask flux_mask input_flux) (ts.take ds.length),
      (maskSelect m input_flux).length ≠ 0)
    (hne2 : (maskSelect (foldMask input_flux (initMask flux_mask input_flux)
      (ts.take (ds.length + 1))) input_flux).length ≠ 0)
    (hover : (maskSelect (foldMask input_flux (initMask flux_mask input_flux)
      (ts.take (ds.length + 1))) input_flux).length ≤ d) :
    continuum_model fitpoly input_wave input_flux flux_mask (ds ++ [d]) ts false
      = .ok ⟨foldMask input_flux (initMask flux_mask input_flux) (ts.take (ds.length + 1)),
             .nanArr, none, true⟩ := by
  set m0 := initMask flux_mask input_flux with hm0
  set ts1 := ts.take ds.length with hts1
  have hts1len : ts1.length = ds.length := by
    rw [hts1, List.length_take]
    omega
  obtain ⟨t, rest, hdrop⟩ : ∃ t rest, ts.drop ds.length = t :: rest := by
    cases hd : ts.drop ds.length with
    | nil =>
        exfalso
        have := congrArg List.length hd
        simp at this
        omega
    | cons t rest => exact ⟨t, rest, rfl⟩
  have htseq : ts = ts1 ++ t :: rest := by
    rw [hts1, ← hdrop]
    exact (List.take_append_drop _ _).symm
  have htake1 : ts.take (ds.length + 1) = ts1 ++ [t] := by
    rw [htseq, List.take_append_eq_append_take, List.take_of_length_le (by omega),
        hts1len]
    have hone : ds.length + 1 - ds.length = 1 := by omega
    rw [hone]
    rfl
  have hts1tk : ts1.take ds.length = ts1 := by
    rw [← hts1len]
    exact List.take_length ts1
  have hmF : foldMask input_flux m0 (ts.take (ds.length + 1))
      = maskStep input_flux (foldMask input_flux m0 ts1) t := by
    rw [htake1, foldMask_append]
    rfl
  unfold continuum_model
  rw [htseq]
  rw [contLoop_append fitpoly input_wave input_flux false ds ts1 [d] (t :: rest)
      ⟨m0, .unset, none, false⟩ hts1len.symm]
  obtain ⟨st1, hrun1, hmask1, _⟩ := contLoop_ok fitpoly input_wave input_flux ds ts1
    ⟨m0, .unset, none, false⟩ (le_of_eq hts1len.symm)
    (by intro m hm; rw [hts1tk] at hm; exact hne m hm)
  rw [hrun1]
  dsimp only
  have hmaskst1 : st1.mask_cont = foldMask input_flux m0 ts1 := by
    rw [hmask1, hts1tk]
  have h1 : (maskSelect st1.mask_cont input_flux).length ≠ 0 := by
    rw [hmaskst1]
    exact hne _ (foldMask_mem_maskSeq input_flux ts1 m0)
  have h2 : (maskSelect (maskStep input_flux st1.mask_cont t) input_flux).length ≠ 0 := by
    rw [hmaskst1, ← hmF]
    exact hne2
  rw [contLoop_cons, contStep_ok_of_ne fitpoly input_wave input_flux st1 d t h1 h2]
  have hovgt : d + 1 > (maskSelect (maskStep input_flux st1.mask_cont t) input_flux).length := by
    rw [hmaskst1, ← hmF]
    omega
  rw [if_pos hovgt]
  dsimp only [contLoop, contFinish]
  rw [hmaskst1, ← hmF, ← htseq]

/-- C6 (amended): `SpecTreatment.continuum` processes the (degree,
threshold) pairs in list order; each iteration computes 16th/84th percentile
flux bounds of the presently unmasked samples scaled by the iteration's
threshold (`low/t`, `high*t`), expands the exclusion mask to samples outside
those bounds, and THEN fits the polynomial of the current degree to the
samples under the expanded mask.  Afterwards the final polynomial —
fitted on the final mask — evaluated over the full wavelength grid is the
stored continuum, and the residual deviation of `flux - cont` over the final
unmasked samples is the stored noise estimate (`cont_var` is the square of
`cont_std`).  Stated for plotting disabled, all selections non-empty, and no
degree overflow. -/
theorem continuum_mask_then_fit_characterization
    (fitpoly : ℕ → List ℚ → List ℚ → List ℚ)
    (input_wave input_flux : List ℚ) (flux_mask : Option (List Bool))
    (ds : List ℕ) (d : ℕ) (ts : List ℚ)
    (hlen : ds.length + 1 ≤ ts.length)
    (hne : ∀ m ∈ maskSeq input_flux (initMask flux_mask input_flux) (ts.take ds.length),
      (maskSelect m input_flux).length ≠ 0)
    (hnov_pre : ∀ p ∈ ds.zip ((maskSeq input_flux (initMask flux_mask input_flux)
        (ts.take ds.length)).tail),
      p.1 + 1 ≤ (maskSelect p.2 input_flux).length)
    (hnov_last : d + 1 ≤ (maskSelect (foldMask input_flux (initMask flux_mask input_flux)
      (ts.take (ds.length + 1))) input_flux).length) :
    continuum_model fitpoly input_wave input_flux flux_mask (ds ++ [d]) ts false
      = .ok ⟨foldMask input_flux (initMask flux_mask input_flux) (ts.take (ds.length + 1)),
          .arr (input_wave.map (polyEval (fitpoly d
            (maskSelect (foldMask input_flux (initMask flux_mask input_flux)
              (ts.take (ds.length + 1))) input_wave)
            (maskSelect (foldMask input_flux (initMask flux_mask input_flux)
              (ts.take (ds.length + 1))) input_flux)))),
          listVariance (maskSelect (foldMask input_flux (initMask flux_mask input_flux)
              (ts.take (ds.length + 1)))
            (List.zipWith (fun a b => a - b) input_flux
              (input_wave.map (polyEval (fitpoly d
                (maskSelect (foldMask input_flux (initMask flux_mask input_flux)
                  (ts.take (ds.length + 1))) input_wave)
                (maskSelect (foldMask input_flux (initMask flux_mask input_flux)
                  (ts.take (ds.length + 1))) input_flux)))))),
          false⟩ := by
  set m0 := initMask flux_mask input_flux with hm0
  set ts1 := ts.take ds.length with hts1
  have hts1len : ts1.length = ds.length := by
    rw [hts1, List.length_take]
    omega
  obtain ⟨t, rest, hdrop⟩ : ∃ t rest, ts.drop ds.length = t :: rest := by
    cases hd : ts.drop ds.length with
    | nil =>
        exfalso
        have := congrArg List.length hd
        simp at this
        omega
    | cons t rest => exact ⟨t, rest, rfl⟩
  have htseq : ts = ts1 ++ t :: rest := by
    rw [hts1, ← hdrop]
    exact (List.take_append_drop _ _).symm
  have htake1 : ts.take (ds.length + 1) = ts1 ++ [t] := by
    rw [htseq, List.take_append_eq_append_take, List.take_of_length_le (by omega),
        hts1len]
    have hone : ds.length + 1 - ds.length = 1 := by omega
    rw [hone]
    rfl
  have hts1tk : ts1.take ds.length = ts1 := by
    rw [← hts1len]
    exact List.take_length ts1
  have hmF : foldMask input_flux m0 (ts.take (ds.length + 1))
      = maskStep input_flux (foldMask input_flux m0 ts1) t := by
    rw [htake1, foldMask_append]
    rfl
  unfold continuum_model
  rw [htseq]
  rw [contLoop_append fitpoly input_wave input_flux false ds ts1 [d] (t :: rest)
      ⟨m0, .unset, none, false⟩ hts1len.symm]
  obtain ⟨st1, hrun1, hmask1, hwarn1⟩ := contLoop_ok fitpoly input_wave input_flux ds ts1
    ⟨m0, .unset, none, false⟩ (le_of_eq hts1len.symm)
    (by intro m hm; rw [hts1tk] at hm; exact hne m hm)
  rw [hrun1]
  dsimp only
  have hmaskst1 : st1.mask_cont = foldMask input_flux m0 ts1 := by
    rw [hmask1, hts1tk]
  have hwarnst1 : st1.warned = false :=
    hwarn1 (fun p hp => hnov_pre p (by rw [hts1tk] at hp; exact hp))
  have h1 : (maskSelect st1.mask_cont input_flux).length ≠ 0 := by
    rw [hmaskst1]
    exact hne _ (foldMask_mem_maskSeq input_flux ts1 m0)
  have h2 : (maskSelect (maskStep input_flux st1.mask_cont t) input_flux).length ≠ 0 := by
    rw [hmaskst1, ← hmF]
    omega
  rw [contLoop_cons, contStep_ok_of_ne fitpoly input_wave input_flux st1 d t h1 h2]
  have hovgt : ¬ d + 1 > (maskSelect (maskStep input_flux st1.mask_cont t) input_flux).length := by
    rw [hmaskst1, ← hmF]
    omega
  rw [if_neg hovgt]
  dsimp only [contLoop, contFinish]
  rw [hmaskst1, ← hmF, ← htseq, hwarnst1]

set_option maxRecDepth 16000 in
/-- Witness for `continuum_degree_overflow_graceful`: degree 5 against three
usable samples, plotting disabled. -/
theorem continuum_degree_overflow_witness :
    continuum_model meanFit [1, 2, 3] [10, 10, 40] none ([] ++ [5]) [10] false
      = .ok ⟨foldMask [10, 10, 40] (initMask none [10, 10, 40])
               (([10] : List ℚ).take (List.length ([] : List ℕ) + 1)),
             .nanArr, none, true⟩ :=
  continuum_degree_overflow_graceful meanFit [1, 2, 3] [10, 10, 40] none [] 5 [10]
    (by decide) (by with_unfolding_all decide) (by with_unfolding_all decide)
    (by with_unfolding_all decide)

set_option maxRecDepth 16000 in
/-- Witness for `continuum_mask_then_fit_characterization`: one (degree 0,
threshold 1) pair on flux `[0, 0, 0, 100]`. -/
theorem continuum_mask_then_fit_witness :
    continuum_model meanFit [0, 1, 2, 3] [0, 0, 0, 100] none ([] ++ [0]) [1] false
      = .ok ⟨foldMask [0, 0, 0, 100] (initMask none [0, 0, 0, 100])
               (([1] : List ℚ).take (List.length ([] : List ℕ) + 1)),
          .arr (([0, 1, 2, 3] : List ℚ).map (polyEval (meanFit 0
            (maskSelect (foldMask [0, 0, 0, 100] (initMask none [0, 0, 0, 100])
              (([1] : List ℚ).take (List.length ([] : List ℕ) + 1))) [0, 1, 2, 3])
            (maskSelect (foldMask [0, 0, 0, 100] (initMask none [0, 0, 0, 100])
              (([1] : List ℚ).take (List.length ([] : List ℕ) + 1))) [0, 0, 0, 100])))),
          listVariance (maskSelect (foldMask [0, 0, 0, 100] (initMask none [0, 0, 0, 100])
              (([1] : List ℚ).take (List.length ([] : List ℕ) + 1)))
            (List.zipWith (fun a b => a - b) [0, 0, 0, 100]
              (([0, 1, 2, 3] : List ℚ).map (polyEval (meanFit 0
                (maskSelect (foldMask [0, 0, 0, 100] (initMask none [0, 0, 0, 100])
                  (([1] : List ℚ).take (List.length ([] : List ℕ) + 1))) [0, 1, 2, 3])
                (maskSelect (foldMask [0, 0, 0, 100] (initMask none [0, 0, 0, 100])
                  (([1] : List ℚ).take (List.length ([] : List ℕ) + 1))) [0, 0, 0, 100])))))),
          false⟩ :=
  continuum_mask_then_fit_characterization meanFit [0, 1, 2, 3] [0, 0, 0, 100] none [] 0 [1]
    (by decide) (by with_unfolding_all decide) (by with_unfolding_all decide)
    (by with_unfolding_all decide)

end Lime
